import Mathlib

/-!
Verification development for the metronome graphite-api plugin
(src/graphite-api/metronome/__init__.py).  Paths and response bodies are
modelled as `List Char`; machine state (metrics cache, last-fetch cache) is
passed explicitly; code that can raise a Python exception is modelled with
`Option`/`Except`.  The backend HTTP layer is modelled by passing each
request's response as an explicit argument.
-/

namespace Metronome

/-! ## Python string and slice primitives -/

/-- Clamp a (possibly negative) Python slice index into `[0, len]`,
following Python's rules: negative indices count from the end. -/
def pySliceIdx (len : Nat) (i : Int) : Nat :=
  if i < 0 then (max 0 (i + len)).toNat else min i.toNat len

/-- Python slice `l[a:b]` (step 1), including negative-index handling. -/
def pySlice {α : Type} (l : List α) (a b : Int) : List α :=
  (l.take (pySliceIdx l.length b)).drop (pySliceIdx l.length a)

/-- Worker for `strReplace`, with explicit fuel (the fuel is always at least
the length of the string, so it never runs out when `old` is nonempty). -/
def strReplaceGo (old new : List Char) : Nat → List Char → List Char
  | 0, s => s
  | _ + 1, [] => []
  | fuel + 1, c :: rest =>
    if old ≠ [] ∧ old.isPrefixOf (c :: rest) then
      new ++ strReplaceGo old new fuel ((c :: rest).drop old.length)
    else
      c :: strReplaceGo old new fuel rest

/-- Python `s.replace(old, new)` for a nonempty `old`: replace all
non-overlapping occurrences, scanning left to right. -/
def strReplace (old new s : List Char) : List Char :=
  strReplaceGo old new s.length s

/-- Python `s.split(d)` for a single-character separator `d`. -/
def splitOn (d : Char) : List Char → List (List Char)
  | [] => [[]]
  | c :: rest =>
    if c = d then [] :: splitOn d rest
    else
      match splitOn d rest with
      | [] => [[c]]
      | w :: ws => (c :: w) :: ws

/-- Python `'.'.join(ws)`. -/
def joinDot : List (List Char) → List Char
  | [] => []
  | w :: ws =>
    match ws with
    | [] => w
    | _ :: _ => w ++ '.' :: joinDot ws

/-! ## JSON values and a model of Python `json.loads`

The parser covers the JSON fragment the backend actually emits (objects,
arrays, strings with simple escapes, integer numerals, `true`/`false`/
`null`); fractional or exponent numerals and `\u` escapes are outside the
model and make it fail, as no claim exercises them. -/

inductive JValue where
  | jnull
  | jbool (b : Bool)
  | jnum (n : Int)
  | jstr (s : List Char)
  | jarr (elems : List JValue)
  | jobj (fields : List (List Char × JValue))

/-- JSON whitespace skipping. -/
def skipWs : List Char → List Char
  | c :: rest =>
    if c = ' ' ∨ c = '\t' ∨ c = '\n' ∨ c = '\r' then skipWs rest else c :: rest
  | [] => []

/-- Translation of the simple JSON string escapes. -/
def escChar (c : Char) : Option Char :=
  if c = '"' then some '"'
  else if c = '\\' then some '\\'
  else if c = '/' then some '/'
  else if c = 'b' then some (Char.ofNat 8)
  else if c = 'f' then some (Char.ofNat 12)
  else if c = 'n' then some '\n'
  else if c = 'r' then some '\r'
  else if c = 't' then some '\t'
  else none

/-- Parse the remainder of a JSON string (the opening quote already
consumed), returning the contents and the input after the closing quote. -/
def parseStrChars : List Char → Option (List Char × List Char)
  | [] => none
  | '"' :: rest => some ([], rest)
  | '\\' :: rest =>
    match rest with
    | [] => none
    | e :: rest2 =>
      match escChar e, parseStrChars rest2 with
      | some c, some (cs, r) => some (c :: cs, r)
      | _, _ => none
  | c :: rest =>
    match parseStrChars rest with
    | some (cs, r) => some (c :: cs, r)
    | none => none

/-- Parse a run of decimal digits into a natural number. -/
def parseDigits (acc : Nat) : List Char → Nat × List Char
  | c :: rest =>
    if '0' ≤ c ∧ c ≤ '9' then
      parseDigits (acc * 10 + (c.toNat - '0'.toNat)) rest
    else (acc, c :: rest)
  | [] => (acc, [])

/-- True on a digit character. -/
def isDigit (c : Char) : Bool := decide ('0' ≤ c ∧ c ≤ '9')

/-- Parse an integer JSON numeral (an optional minus sign and digits);
fractional and exponent parts are not modelled and are rejected. -/
def parseIntNum (s : List Char) : Option (Int × List Char) :=
  match s with
  | '-' :: rest =>
    match rest with
    | c :: _ =>
      if isDigit c then
        let (n, r) := parseDigits 0 rest
        match r with
        | '.' :: _ => none
        | 'e' :: _ => none
        | 'E' :: _ => none
        | _ => some (-(n : Int), r)
      else none
    | [] => none
  | c :: _ =>
    if isDigit c then
      let (n, r) := parseDigits 0 s
      match r with
      | '.' :: _ => none
      | 'e' :: _ => none
      | 'E' :: _ => none
      | _ => some ((n : Int), r)
    else none
  | [] => none

mutual

/-- Parse one JSON value; `fuel` bounds the recursion depth and is always
sufficient when it starts at the input length plus one. -/
def parseVal : Nat → List Char → Option (JValue × List Char)
  | 0, _ => none
  | fuel + 1, s =>
    match skipWs s with
    | [] => none
    | c :: rest =>
      if c = '{' then
        match skipWs rest with
        | '}' :: r2 => some (.jobj [], r2)
        | r2 => match parseMembers fuel r2 with
          | some (kvs, r3) => some (.jobj kvs, r3)
          | none => none
      else if c = '[' then
        match skipWs rest with
        | ']' :: r2 => some (.jarr [], r2)
        | r2 => match parseElems fuel r2 with
          | some (vs, r3) => some (.jarr vs, r3)
          | none => none
      else if c = '"' then
        match parseStrChars rest with
        | some (cs, r2) => some (.jstr cs, r2)
        | none => none
      else if c = 't' then
        if "rue".toList.isPrefixOf rest then some (.jbool true, rest.drop 3) else none
      else if c = 'f' then
        if "alse".toList.isPrefixOf rest then some (.jbool false, rest.drop 4) else none
      else if c = 'n' then
        if "ull".toList.isPrefixOf rest then some (.jnull, rest.drop 3) else none
      else
        match parseIntNum (c :: rest) with
        | some (n, r2) => some (.jnum n, r2)
        | none => none

/-- Parse the members of a JSON object (after `{`, first member expected),
consuming through the closing `}`. -/
def parseMembers : Nat → List Char → Option (List (List Char × JValue) × List Char)
  | 0, _ => none
  | fuel + 1, s =>
    match skipWs s with
    | '"' :: rest =>
      match parseStrChars rest with
      | some (key, r1) =>
        (match skipWs r1 with
        | ':' :: r2 =>
          match parseVal fuel r2 with
          | some (v, r3) =>
            (match skipWs r3 with
            | ',' :: r4 =>
              match parseMembers fuel r4 with
              | some (kvs, r5) => some ((key, v) :: kvs, r5)
              | none => none
            | '}' :: r4 => some ([(key, v)], r4)
            | _ => none)
          | none => none
        | _ => none)
      | none => none
    | _ => none

/-- Parse the elements of a JSON array (after `[`, first element expected),
consuming through the closing `]`. -/
def parseElems : Nat → List Char → Option (List JValue × List Char)
  | 0, _ => none
  | fuel + 1, s =>
    match parseVal fuel s with
    | some (v, r1) =>
      (match skipWs r1 with
      | ',' :: r2 =>
        match parseElems fuel r2 with
        | some (vs, r3) => some (v :: vs, r3)
        | none => none
      | ']' :: r2 => some ([v], r2)
      | _ => none)
    | none => none

end

/-- Model of Python `json.loads`: one JSON value followed only by
whitespace; anything else raises `ValueError` (modelled as `none`). -/
def json_loads (s : List Char) : Option JValue :=
  match parseVal (s.length + 1) s with
  | some (v, rest) => if skipWs rest = [] then some v else none
  | none => none

/-! ## `load_jsonp` -/

/-- Embeds `load_jsonp`: strip the JSONP wrapper (`s[2:-2]`), quote the
backend's unquoted ` derivative: ` and ` raw: ` keys, then JSON-parse.
`none` models the `ValueError` the Python code re-raises. -/
def load_jsonp (s : List Char) : Option JValue :=
  let raw := pySlice s 2 (-2)
  let raw := strReplace " derivative: ".toList " \"derivative\":".toList raw
  let raw := strReplace " raw: ".toList " \"raw\":".toList raw
  json_loads raw

/-! ## Chunk partitioning (`chunk`) -/

/-- `URLLENGTH = 2048 - 300`, the byte budget for one request's path list. -/
def URLLENGTH : Nat := 2048 - 300

/-- Loop of `chunk`: `chunklist` is the chunk being built and `linelength`
its serialized size so far (each node costs its length plus one separator
byte, the code's magic `+ 1` for the joining comma). -/
def chunkGo (budget : Nat) : List (List Char) → List (List Char) → Nat → List (List (List Char))
  | [], chunklist, _ => if chunklist.isEmpty then [] else [chunklist]
  | node :: rest, chunklist, linelength =>
    let nodelength := node.length + 1
    if linelength + nodelength > budget then
      chunklist :: chunkGo budget rest [node] nodelength
    else
      chunkGo budget rest (chunklist ++ [node]) (linelength + nodelength)

/-- Embeds `chunk(nodelist, length)`: split a path list so each batch fits
the url budget; the generator's yields are collected into a list. -/
def chunk (nodelist : List (List Char)) (budget : Nat) : List (List (List Char)) :=
  chunkGo budget nodelist [] 0

/-- Serialized size of a chunk: each path counts its length plus one
separator byte, matching the accounting in `chunk`. -/
def serSize (c : List (List Char)) : Nat := (c.map (fun n => n.length + 1)).sum

/-! ## The query matcher (`Matcher`)

`Matcher.__init__` translates the query into the anchored regex
`^(?P<path> T(query) )(?P<extra>$|\..+$)` where `T` escapes `.` and `$`,
turns `{a,b}` into `(a|b)` and `*` into `[^.]*`.  The translated pattern is
modelled as a token list: literal characters, `[^.]*`, and alternations of
literal strings (brace groups, which in the documented pattern DSL contain
literal alternatives).  Matching follows Python's backtracking order:
greedy `[^.]*` (longest first) and leftmost alternative first. -/

inductive RTok where
  | lit (c : Char)
  | star
  | alts (ws : List (List Char))
deriving DecidableEq

/-- The trailing group `(?P<extra>$|\..+$)` applied to the remainder `s` of
the candidate after the `path` group.  `$` (tried first) matches at the end
of the string or just before a trailing newline, consuming nothing, so the
extra group is empty when `s` is `[]` or `['\n']`.  Otherwise `\..+$`
requires a dot, then `.+` takes the following run of non-newline characters
(nonempty), and `$` again accepts the end or a single trailing newline.
The result pairs the extra group's text with `s` itself (the position
where the `path` group ended). -/
def matchExtra (s : List Char) : Option (List Char × List Char) :=
  if s = [] ∨ s = ['\n'] then some ([], s)
  else
    match s with
    | '.' :: rest =>
      let r1 := rest.takeWhile (fun c2 => c2 ≠ '\n')
      let r2 := rest.dropWhile (fun c2 => c2 ≠ '\n')
      if r1 ≠ [] ∧ (r2 = [] ∨ r2 = ['\n']) then some ('.' :: r1, s) else none
    | _ => none

/-- Backtracking matcher for the translated pattern, in continuation style:
`k` receives the candidate remainder where the `path` group ends, and the
first alternative (in Python's priority order) on which `k` succeeds wins.
The `star` token is `[^.]*`: any run of non-dot characters (newlines
included), greedy, so longer runs are tried first. -/
def matchToks : List RTok → List Char → (List Char → Option (List Char × List Char)) →
    Option (List Char × List Char)
  | [], s, k => k s
  | .lit c :: ts, s, k =>
    match s with
    | [] => none
    | x :: rest => if x = c then matchToks ts rest k else none
  | .star :: ts, s, k =>
    let n := (s.takeWhile (fun c => c ≠ '.')).length
    (List.range (n + 1)).findSome? (fun i => matchToks ts (s.drop (n - i)) k)
  | .alts ws :: ts, s, k =>
    ws.findSome? (fun w =>
      if w.isPrefixOf s then matchToks ts (s.drop w.length) k else none)

/-- Embeds `Matcher.match`: `none` models the `(None, None)` return; on a
match it returns `m.group('path')` (the candidate up to the point where the
extra group started, so a trailing newline matched by `$` is excluded) and
`is_leaf_node = not m.group('extra')`. -/
def matcherMatch (pat : List RTok) (cand : List Char) : Option (List Char × Bool) :=
  match matchToks pat cand matchExtra with
  | some (extra, rest) => some (cand.take (cand.length - rest.length), extra.isEmpty)
  | none => none

/-- Worker for `compileQuery`, with fuel bounded by the query length. -/
def compileGo : Nat → List Char → Option (List RTok)
  | 0, s => if s.isEmpty then some [] else none
  | _ + 1, [] => some []
  | fuel + 1, c :: rest =>
    if c = '{' then
      let inside := rest.takeWhile (fun c2 => c2 ≠ '}')
      match rest.dropWhile (fun c2 => c2 ≠ '}') with
      | '}' :: rest2 =>
        if '{' ∈ inside ∨ '*' ∈ inside then none
        else
          match compileGo fuel rest2 with
          | some ts => some (.alts (splitOn ',' inside) :: ts)
          | none => none
      | _ => none
    else if c = '}' ∨ c = ',' then none
    else if c = '*' then
      match compileGo fuel rest with
      | some ts => some (.star :: ts)
      | none => none
    else
      match compileGo fuel rest with
      | some ts => some (.lit c :: ts)
      | none => none

/-- Token form of the regex `Matcher.__init__` builds, for queries in the
documented pattern DSL: `{a,b}` becomes an alternation of the comma-split
literal alternatives, `*` becomes `[^.]*`, every other character (dots and
dollars included, which the code escapes) is a literal.  Queries outside
the DSL (nested braces, `*` inside a group, stray `}`/`,`) are not
modelled (`none`). -/
def compileQuery (q : List Char) : Option (List RTok) := compileGo q.length q

/-! ## View mapping (`_pdns_map_views` / `_pdns_unmap_views`) -/

/-- Embeds `name.replace('.', '--')` from `_pdns_map_views`. -/
def escapeName : List Char → List Char
  | [] => []
  | c :: rest => if c = '.' then '-' :: '-' :: escapeName rest else c :: escapeName rest

/-- Embeds `p2.replace('--', '.')` from `_pdns_unmap_views` (leftmost,
non-overlapping, like Python `str.replace`). -/
def unescapeName : List Char → List Char
  | [] => []
  | [c] => [c]
  | c1 :: c2 :: rest =>
    if c1 = '-' ∧ c2 = '-' then '.' :: unescapeName rest
    else c1 :: unescapeName (c2 :: rest)

/-- A name field on which the double-dash escape is unambiguous: it holds
no dash directly followed by another dash or by a dot. -/
def goodName : List Char → Bool
  | [] => true
  | [_] => true
  | c1 :: c2 :: rest =>
    if c1 = '-' ∧ (c2 = '-' ∨ c2 = '.') then false
    else goodName (c2 :: rest)

/-- Feasibility of the tail after the `.type.` separator for
`(?P<extra>.+?)$`: the lazy `.+?` takes the run of non-newline characters
(which must be nonempty), and `$` then requires the end of the string or a
single trailing newline (Python's `$` matches just before a final
newline). -/
def pdnsExtraOk (tail : List Char) : Prop :=
  tail.takeWhile (fun c => c ≠ '\n') ≠ [] ∧
  (tail.dropWhile (fun c => c ≠ '\n') = [] ∨ tail.dropWhile (fun c => c ≠ '\n') = ['\n'])

instance (tail : List Char) : Decidable (pdnsExtraOk tail) := by
  unfold pdnsExtraOk
  infer_instance

/-- Search loop for the regex `^pdns\.(?P<name>.+)\.(?P<type>auth|recursor)\.(?P<extra>.+?)$`
applied to `body` (the path after the literal `pdns.`).  `name` is greedy,
so the split position `j` (the length of `name`) is searched from the
largest value down; a position is feasible when `body.drop j` starts with
`.auth.` or `.recursor.`, `name` crosses no newline, and the remaining tail
satisfies `pdnsExtraOk` (nonempty extra up to the end or a trailing
newline). -/
def pdnsTrySplit (body : List Char) : Nat → Option (Nat × List Char)
  | 0 => none
  | j + 1 =>
    if ".auth.".toList.isPrefixOf (body.drop (j + 1)) ∧
        (body.take (j + 1)).all (fun c => c ≠ '\n') = true ∧
        pdnsExtraOk (body.drop (j + 1 + 6)) then
      some (j + 1, "auth".toList)
    else if ".recursor.".toList.isPrefixOf (body.drop (j + 1)) ∧
        (body.take (j + 1)).all (fun c => c ≠ '\n') = true ∧
        pdnsExtraOk (body.drop (j + 1 + 10)) then
      some (j + 1, "recursor".toList)
    else pdnsTrySplit body j

/-- Embeds `_r_pdns_map_views.match(path)`, returning the `name`, `type`
and `extra` groups.  The extra group is the tail's run of non-newline
characters: a trailing newline matched by `$` is not part of the group. -/
def pdnsMatch (path : List Char) : Option (List Char × List Char × List Char) :=
  if "pdns.".toList.isPrefixOf path then
    let body := path.drop 5
    match pdnsTrySplit body body.length with
    | some (j, t) =>
      some (body.take j, t,
        (body.drop (j + t.length + 2)).takeWhile (fun c => c ≠ '\n'))
    | none => none
  else none

/-- The synthetic alias `'_pdns_view.{type}.{name}.{type}.{extra}'` built
from a raw path's groups, with the name's dots escaped as `--`. -/
def mkView (t n e : List Char) : List Char :=
  "_pdns_view.".toList ++ t ++ '.' :: escapeName n ++ '.' :: t ++ '.' :: e

/-- Embeds `_pdns_map_views`: keep every path, add the view alias for paths
the pdns regex matches, then pair every path with its `_dt` sibling. -/
def pdns_map_views (paths : List (List Char)) : List (List Char) :=
  let view_paths := paths.flatMap (fun path =>
    match pdnsMatch path with
    | some (n, t, e) => [path, mkView t n e]
    | none => [path])
  view_paths.flatMap (fun path => [path, path ++ "_dt".toList])

/-- The alias prefix tested by `path.startswith('_pdns_view.')`. -/
def viewPrefix : List Char := "_pdns_view.".toList

/-- Embeds one iteration of the `_pdns_unmap_views` loop: a view alias is
split on dots and rewritten to `'pdns.{name}.{type}.{extra}'` with a rename
entry; other paths pass through.  `none` models the `IndexError` raised on
an alias with fewer than three dot components. -/
def pdns_unmap_one (path : List Char) : Option (List Char × List (List Char × List Char)) :=
  if viewPrefix.isPrefixOf path then
    match splitOn '.' path with
    | _ :: p1 :: p2 :: rest =>
      let newPath := "pdns.".toList ++ unescapeName p2 ++ '.' :: p1 ++ '.' :: joinDot (rest.drop 1)
      some (newPath, [(newPath, path)])
    | _ => none
  else
    some (path, [])

/-- Embeds `_pdns_unmap_views`: the unmapped paths in order, and the
`renames` table (`new_path -> view path`) in insertion order. -/
def pdns_unmap_views : List (List Char) → Option (List (List Char) × List (List Char × List Char))
  | [] => some ([], [])
  | path :: rest =>
    match pdns_unmap_one path, pdns_unmap_views rest with
    | some (u, r), some (us, rs) => some (u :: us, r ++ rs)
    | _, _ => none

/-! ## Python dict operations over association lists

Python dicts keep keys unique; in the states these operations build from
empty dicts that invariant holds, and lookups read the first matching
entry, which coincides with dict semantics there. -/

/-- `d[k]` as an option (Python raises `KeyError` on `none`). -/
def dictLookup {α : Type} : List (List Char × α) → List Char → Option α
  | [], _ => none
  | (k2, v) :: rest, k => if k2 = k then some v else dictLookup rest k

/-- `d.pop(k)`: the removed value and the remaining dict; `none` models the
`KeyError` on a missing key. -/
def dictPop {α : Type} : List (List Char × α) → List Char → Option (α × List (List Char × α))
  | [], _ => none
  | (k2, v) :: rest, k =>
    if k2 = k then some (v, rest)
    else
      match dictPop rest k with
      | some (v2, d2) => some (v2, (k2, v) :: d2)
      | none => none

/-- `d[k] = v`: replace the value at an existing key, else append. -/
def dictSet {α : Type} : List (List Char × α) → List Char → α → List (List Char × α)
  | [], k, v => [(k, v)]
  | (k2, v2) :: rest, k, v =>
    if k2 = k then (k2, v) :: rest else (k2, v2) :: dictSet rest k v

/-- `d.update(e)`: assign every entry of `e` into `d`, in order. -/
def dictUpdate {α : Type} (d e : List (List Char × α)) : List (List Char × α) :=
  e.foldl (fun acc kv => dictSet acc kv.1 kv.2) d

/-! ## The metrics catalog (`_get_metrics_list`) -/

/-- The mutable catalog fields of `MetronomeFinder`.  The set form
`_metrics_cache_set` is modelled by the same path list (only membership is
ever read from it). -/
structure CatalogState where
  metrics_cache : Option (List (List Char))
  metrics_cache_set : Option (List (List Char))
  metrics_cache_ts : Nat

/-- `data['metrics']` as a list of path strings; `none` models the
`KeyError`/`TypeError` raised when the shape is wrong. -/
def jGetMetrics (v : JValue) : Option (List (List Char)) :=
  match v with
  | .jobj fields =>
    match dictLookup fields "metrics".toList with
    | some (.jarr items) =>
      items.mapM (fun it =>
        match it with
        | .jstr s => some s
        | _ => none)
    | _ => none
  | _ => none

/-- Embeds `_get_metrics_list`.  `now` models `time.time()`, `expiry` the
configured cache expiry, and `resp` the backend response body
(`none` models a raised `requests` exception).  The result pairs the new
state with either the `(cache, cache_set)` return value or `.error ()` for
a propagated exception. -/
def get_metrics_list (st : CatalogState) (now expiry : Nat) (resp : Option (List Char)) :
    CatalogState × Except Unit (Option (List (List Char)) × Option (List (List Char))) :=
  if st.metrics_cache_ts + expiry > now then
    (st, .ok (st.metrics_cache, st.metrics_cache_set))
  else
    match resp with
    | none => (st, .error ())
    | some body =>
      match load_jsonp body with
      | none => (st, .error ())
      | some data =>
        match jGetMetrics data with
        | none => (st, .error ())
        | some metrics =>
          let cache := pdns_map_views metrics
          ({ metrics_cache := some cache, metrics_cache_set := some cache,
             metrics_cache_ts := now },
           .ok (some cache, some cache))

/-! ## The fetch engine (`fetch_multi`, `_fetch_from_last`, `_retrieve_data`) -/

/-- The `_LastFetch` cache object, with the class-attribute defaults. -/
structure LastFetch where
  start_time : Int := 0
  end_time : Int := 0
  step : Int := 0
  points : Int := 0
  additional_points : Int := 0
  ext_start_time : Int := 0
  ext_points : Int := 0
  ext_data : Option (List (List Char × List JValue)) := none

/-- Series data keyed by path, as built by `_retrieve_data`. -/
def SeriesDict : Type := List (List Char × List JValue)

/-- Embeds `_fetch_from_last`: serve a single-path request from the cached
extended fetch when `end_time` equals the cached request's `start_time`,
`start_time` lies inside the extended range, and the path is cached; the
values are the Python slice
`ext_data[path][additional_points - points : additional_points]` with
`points = (end_time - start_time) // last.step` (Python 2 integer
division, i.e. `Int.fdiv`). -/
def fetch_from_last (last : LastFetch) (path : List Char) (start_time end_time : Int) :
    Option ((Int × Int × Int) × List JValue) :=
  match last.ext_data with
  | none => none
  | some d =>
    match dictLookup d path with
    | some series =>
      if end_time = last.start_time ∧ last.ext_start_time ≤ start_time then
        let points := (end_time - start_time).fdiv last.step
        some ((start_time, end_time, last.step),
          pySlice series (last.additional_points - points) last.additional_points)
      else none
    | none => none

/-- One chunk's backend interaction: either the `requests` call raised, or
it returned a status code and a response body. -/
inductive HttpResp where
  | exn
  | resp (status : Nat) (body : List Char)
deriving DecidableEq

/-- `[val for (ts, val) in series]`: every element must be a two-element
array; `none` models the `ValueError` a malformed pair raises. -/
def seriesVals : JValue → Option (List JValue)
  | .jarr items =>
    items.mapM (fun it =>
      match it with
      | .jarr [_, v] => some v
      | _ => none)
  | _ => none

/-- The two result-building loops of `_retrieve_data`: entries of `raw`
keyed by paths that were requested plainly, entries of `derivative` keyed
by `path + '_dt'` for paths requested with the suffix. -/
def buildSeriesDict (paths : List (List Char)) (rawItems derItems : List (List Char × JValue)) :
    Option SeriesDict :=
  match rawItems.filterMap (fun kv =>
      if kv.1 ∈ paths then
        match seriesVals kv.2 with
        | some vs => some (some (kv.1, vs))
        | none => some none
      else none) |>.mapM id with
  | none => none
  | some raws =>
    match derItems.filterMap (fun kv =>
        if kv.1 ++ "_dt".toList ∈ paths then
          match seriesVals kv.2 with
          | some vs => some (some (kv.1 ++ "_dt".toList, vs))
          | none => some none
        else none) |>.mapM id with
    | none => none
    | some ders => some (raws ++ ders)

/-- Embeds `_retrieve_data` (wrapped by `do_retrieve`, which re-raises):
a raised request exception propagates (`.error`), a non-200 status yields
an empty dict, a 200 body is JSONP-parsed and its `raw`/`derivative`
sections filtered to the requested paths; a parse failure propagates. -/
def retrieve_data (paths : List (List Char)) (r : HttpResp) : Except Unit SeriesDict :=
  match r with
  | .exn => .error ()
  | .resp status body =>
    if status ≠ 200 then .ok []
    else
      match load_jsonp body with
      | none => .error ()
      | some data =>
        match data with
        | .jobj fields =>
          match dictLookup fields "raw".toList, dictLookup fields "derivative".toList with
          | some (.jobj rawItems), some (.jobj derItems) =>
            match buildSeriesDict paths rawItems derItems with
            | some sd => .ok sd
            | none => .error ()
          | _, _ => .error ()
        | _ => .error ()

/-- Loop of the merge `for series in pool.map(...): ext_data.update(series)`;
a chunk that raised makes the whole `pool.map` collection raise. -/
def fetch_merge_go (acc : SeriesDict) : List (Except Unit SeriesDict) → Except Unit SeriesDict
  | [] => .ok acc
  | .error _ :: _ => .error ()
  | .ok d :: rest => fetch_merge_go (dictUpdate acc d) rest

/-- Merge of all chunk results into one dict, starting from `{}`. -/
def fetch_merge (rs : List (Except Unit SeriesDict)) : Except Unit SeriesDict :=
  fetch_merge_go [] rs

/-- `points = min(720, (end_time - start_time) / 10)` with Python 2 integer
division (`Int.fdiv`). -/
def fm_points (start_time end_time : Int) : Int :=
  min 720 ((end_time - start_time).fdiv 10)

/-- Embeds `for old, new in renames.items(): ext_data[new] = ext_data.pop(old)`;
`none` models the `KeyError` raised when some `old` key is absent. -/
def apply_renames : List (List Char × List Char) → SeriesDict → Option SeriesDict
  | [], d => some d
  | (o, n) :: rest, d =>
    match dictPop d o with
    | some (v, d2) => apply_renames rest (dictSet d2 n v)
    | none => none

/-- Embeds the body of `fetch_multi` past the single-node cache check:
unmap view paths, derive the time window (`.error ()` models the
`ZeroDivisionError` when `points = 0`), retrieve every chunk (the i-th
chunk consuming the i-th entry of `resps`), merge, restore view names, cache
the extended data, and strip the `additional_points` leading samples. -/
def fetch_multi_core (last : LastFetch) (paths : List (List Char)) (start_time end_time : Int)
    (resps : List HttpResp) :
    Except Unit ((Int × Int × Int) × SeriesDict × LastFetch) :=
  match pdns_unmap_views paths with
  | none => .error ()
  | some (upaths, renames) =>
    let points := fm_points start_time end_time
    if points = 0 then .error ()
    else
      let step := (end_time - start_time).fdiv points
      let additional_points : Int := 100
      let ext_points := points + additional_points
      let ext_start_time := start_time - additional_points * step
      match fetch_merge (((chunk upaths URLLENGTH).zip resps).map
          (fun pr => retrieve_data pr.1 pr.2)) with
      | .error _ => .error ()
      | .ok ext_data =>
        match apply_renames renames ext_data with
        | none => .error ()
        | some ext_data2 =>
          let newLast : LastFetch :=
            { start_time := start_time, end_time := end_time, step := step,
              points := points, additional_points := additional_points,
              ext_start_time := ext_start_time, ext_points := ext_points,
              ext_data := some ext_data2 }
          let data := ext_data2.map (fun kv => (kv.1, kv.2.drop 100))
          .ok ((start_time, end_time, step), data, newLast)

/-- Embeds `fetch_multi`: a single-node request is first tried against the
last-fetch cache (returning the cached slice and leaving the cache
untouched); otherwise, and on a cache miss, the normal fetch body runs. -/
def fetch_multi (last : LastFetch) (paths : List (List Char)) (start_time end_time : Int)
    (resps : List HttpResp) :
    Except Unit ((Int × Int × Int) × SeriesDict × LastFetch) :=
  match paths with
  | [p] =>
    match fetch_from_last last p start_time end_time with
    | some (ti, vals) => .ok (ti, [(p, vals)], last)
    | none => fetch_multi_core last paths start_time end_time resps
  | _ => fetch_multi_core last paths start_time end_time resps

/-! ## Lemmas about `chunk` -/

theorem serSize_append_single (acc : List (List Char)) (node : List Char) :
    serSize (acc ++ [node]) = serSize acc + (node.length + 1) := by
  simp [serSize]

theorem chunkGo_flatten (budget : Nat) (ns : List (List Char)) :
    ∀ (acc : List (List Char)) (ll : Nat), (chunkGo budget ns acc ll).flatten = acc ++ ns := by
  induction ns with
  | nil =>
    intro acc ll
    cases acc <;> simp [chunkGo]
  | cons node rest ih =>
    intro acc ll
    simp only [chunkGo]
    split
    · simp [ih]
    · simp [ih]

theorem chunkGo_mem_size (budget : Nat) (ns : List (List Char)) :
    ∀ (acc : List (List Char)) (ll : Nat), ll = serSize acc →
      (serSize acc ≤ budget ∨ acc.length ≤ 1) →
      ∀ c ∈ chunkGo budget ns acc ll, serSize c ≤ budget ∨ c.length = 1 := by
  induction ns with
  | nil =>
    intro acc ll _ hacc c hc
    cases acc with
    | nil => simp [chunkGo] at hc
    | cons a as =>
      simp [chunkGo] at hc
      subst hc
      rcases hacc with h | h
      · exact Or.inl h
      · right
        exact Nat.le_antisymm h (by simp)
  | cons node rest ih =>
    intro acc ll hll hacc c hc
    simp only [chunkGo] at hc
    split at hc
    case isTrue h =>
      rcases List.mem_cons.mp hc with rfl | hc2
      · rcases hacc with h1 | h1
        · exact Or.inl h1
        · cases c with
          | nil => exact Or.inl (by simp [serSize])
          | cons a as => right; exact Nat.le_antisymm h1 (by simp)
      · exact ih [node] (node.length + 1) (by simp [serSize]) (Or.inr (by simp)) c hc2
    case isFalse h =>
      refine ih (acc ++ [node]) (ll + (node.length + 1)) ?_ ?_ c hc
      · rw [serSize_append_single, hll]
      · left
        have h2 : ll + (node.length + 1) ≤ budget := Nat.le_of_not_lt h
        rw [serSize_append_single, ← hll]
        exact h2

theorem chunkGo_cons_of_lt (budget : Nat) (ns acc : List (List Char)) (ll : Nat)
    (h : budget < ll) (hacc : acc ≠ []) :
    ∃ cs, chunkGo budget ns acc ll = acc :: cs := by
  cases ns with
  | nil =>
    refine ⟨[], ?_⟩
    simp [chunkGo, hacc]
  | cons node rest =>
    refine ⟨chunkGo budget rest [node] (node.length + 1), ?_⟩
    simp only [chunkGo]
    rw [if_pos (by omega)]

theorem chunkGo_ne_nil (budget : Nat) (ns : List (List Char)) :
    ∀ (acc : List (List Char)) (ll : Nat), acc ≠ [] →
      ∀ c ∈ chunkGo budget ns acc ll, c ≠ [] := by
  induction ns with
  | nil =>
    intro acc ll hacc c hc
    simp [chunkGo, hacc] at hc
    subst hc
    exact hacc
  | cons node rest ih =>
    intro acc ll hacc c hc
    simp only [chunkGo] at hc
    split at hc
    · rcases List.mem_cons.mp hc with rfl | hc2
      · exact hacc
      · exact ih [node] (node.length + 1) (by simp) c hc2
    · exact ih (acc ++ [node]) (ll + (node.length + 1)) (by simp) c hc

theorem chunkGo_tail_ne_nil (budget : Nat) (ns acc : List (List Char)) (ll : Nat) :
    ∀ c ∈ (chunkGo budget ns acc ll).tail, c ≠ [] := by
  cases ns with
  | nil =>
    cases acc <;> simp [chunkGo]
  | cons node rest =>
    simp only [chunkGo]
    split
    · intro c hc
      exact chunkGo_ne_nil budget rest [node] (node.length + 1) (by simp) c (by simpa using hc)
    · intro c hc
      exact chunkGo_ne_nil budget rest (acc ++ [node]) (ll + (node.length + 1)) (by simp) c
        (List.mem_of_mem_tail hc)

/-- Claim C1: for every path list and positive budget `L`, every chunk
produced by `chunk` has serialized size (path length plus one separator
byte per path) at most `L` unless it holds a single path, and the chunks
concatenate back to the input list. -/
theorem chunk_partition_spec (nodelist : List (List Char)) (L : Nat) (hL : 0 < L) :
    (∀ c ∈ chunk nodelist L, serSize c ≤ L ∨ c.length = 1) ∧
    (chunk nodelist L).flatten = nodelist := by
  refine ⟨?_, ?_⟩
  · exact chunkGo_mem_size L nodelist [] 0 (by simp [serSize]) (Or.inr (by simp))
  · simpa using chunkGo_flatten L nodelist [] 0

/-- Witness for `chunk_partition_spec` at a concrete list and budget. -/
theorem chunk_partition_spec_witness :
    0 < 5 ∧
    ((∀ c ∈ chunk ["ab".toList, "c".toList, "defg".toList] 5, serSize c ≤ 5 ∨ c.length = 1) ∧
      (chunk ["ab".toList, "c".toList, "defg".toList] 5).flatten =
        ["ab".toList, "c".toList, "defg".toList]) :=
  ⟨by decide, chunk_partition_spec ["ab".toList, "c".toList, "defg".toList] 5 (by decide)⟩

/-- Claim C9: when the first path's serialized length exceeds the budget,
`chunk` yields an empty first chunk and then the oversized path alone; and
every chunk after the first (on any input) is nonempty. -/
theorem chunk_oversized_head_spec (n : List Char) (ns ms : List (List Char)) (L : Nat)
    (h : L < n.length + 1) :
    (∃ cs, chunk (n :: ns) L = [] :: [n] :: cs) ∧
    (∀ c ∈ (chunk ms L).tail, c ≠ []) := by
  constructor
  · unfold chunk
    simp only [chunkGo]
    rw [if_pos (by omega)]
    obtain ⟨cs, hcs⟩ := chunkGo_cons_of_lt L ns [n] (n.length + 1) h (by simp)
    exact ⟨cs, by rw [hcs]⟩
  · exact chunkGo_tail_ne_nil L ms [] 0

/-- Witness for `chunk_oversized_head_spec` at a concrete list. -/
theorem chunk_oversized_head_spec_witness :
    3 < "abcdef".toList.length + 1 ∧
    ((∃ cs, chunk ["abcdef".toList, "x".toList] 3 = [] :: ["abcdef".toList] :: cs) ∧
      (∀ c ∈ (chunk ["x".toList, "y".toList] 3).tail, c ≠ [])) :=
  ⟨by decide, chunk_oversized_head_spec "abcdef".toList ["x".toList] ["x".toList, "y".toList] 3
    (by decide)⟩

/-- Claim C3 (code bug): the window derivation takes
`points = min(720, (end - start) // 10)` with no lower bound, so a window
shorter than 10 time units yields `points = 0` and the following
`step = (end - start) / points` raises `ZeroDivisionError` (modelled as
`.error ()`), contradicting the required `points ≥ 1`. -/
theorem fetch_window_zero_points :
    fm_points 0 5 = 0 ∧ (0 : Int) < 5 - 0 ∧
    fetch_multi {} [['a'], ['b']] 0 5 [] = .error () := by
  exact ⟨by decide, by decide, rfl⟩

/-- Claim C4 counterexample: on the exact input the claim names (no braces
around the JSONP body), stripping the wrapper and quoting the keys leaves
`"raw":{...}, "derivative":{}` without an enclosing object, which fails
JSON parsing (Python raises `ValueError`), so the claim's asserted parse
result is not produced. -/
theorem load_jsonp_unbraced_fails :
    load_jsonp "_( raw: \x7b\"a\":[[1,2]]\x7d, derivative: \x7b\x7d );".toList = none := by
  rfl

/-- Claim C4 amended: with the body wrapped in braces, as the backend
actually emits it, the JSONP repair parses to the claimed object. -/
theorem load_jsonp_braced_parses :
    load_jsonp "_(\x7b raw: \x7b\"a\":[[1,2]]\x7d, derivative: \x7b\x7d \x7d);".toList =
      some (.jobj [("raw".toList, .jobj [("a".toList, .jarr [.jarr [.jnum 1, .jnum 2]])]),
                   ("derivative".toList, .jobj [])]) := by
  rfl

/-! ## Lemmas about the view mapping -/

theorem goodName_cons (a : Char) (l : List Char) (h : goodName (a :: l) = true) :
    goodName l = true := by
  cases l with
  | nil => rfl
  | cons b t =>
    simp only [goodName] at h
    split at h
    · exact absurd h (by simp)
    · exact h

theorem escapeName_ne_dot (n : List Char) : ∀ c ∈ escapeName n, c ≠ '.' := by
  induction n with
  | nil => simp [escapeName]
  | cons a rest ih =>
    intro c hc
    simp only [escapeName] at hc
    split at hc
    · simp only [List.mem_cons] at hc
      rcases hc with rfl | rfl | hc2
      · decide
      · decide
      · exact ih c hc2
    case isFalse ha =>
      simp only [List.mem_cons] at hc
      rcases hc with rfl | hc2
      · exact ha
      · exact ih c hc2

theorem escapeName_cons_shape (b : Char) (t : List Char) :
    ∃ x xs, escapeName (b :: t) = x :: xs := by
  by_cases hb : b = '.'
  · exact ⟨'-', '-' :: escapeName t, by simp [escapeName, hb]⟩
  · exact ⟨b, escapeName t, by simp [escapeName, hb]⟩

theorem unescape_escape (n : List Char) (hg : goodName n = true) :
    unescapeName (escapeName n) = n := by
  induction n with
  | nil => rfl
  | cons a tail ih =>
    by_cases ha : a = '.'
    · subst ha
      have h1 : escapeName ('.' :: tail) = '-' :: '-' :: escapeName tail := by
        simp [escapeName]
      rw [h1]
      have h3 : unescapeName ('-' :: '-' :: escapeName tail) =
          '.' :: unescapeName (escapeName tail) := by
        simp [unescapeName]
      rw [h3, ih (goodName_cons _ _ hg)]
    · by_cases ha2 : a = '-'
      · subst ha2
        cases tail with
        | nil => rfl
        | cons b t2 =>
          have hb : ¬ (b = '-' ∨ b = '.') := by
            intro hb
            have : goodName ('-' :: b :: t2) = false := by
              simp only [goodName]
              rw [if_pos (by simp [hb])]
            rw [this] at hg
            exact absurd hg (by simp)
          have hbd : b ≠ '.' := fun h => hb (Or.inr h)
          have hbm : b ≠ '-' := fun h => hb (Or.inl h)
          have h1 : escapeName ('-' :: b :: t2) = '-' :: b :: escapeName t2 := by
            simp only [escapeName]
            rw [if_neg (by decide), if_neg hbd]
          rw [h1]
          have h2 : unescapeName ('-' :: b :: escapeName t2) =
              '-' :: unescapeName (b :: escapeName t2) := by
            simp only [unescapeName]
            rw [if_neg (by simp [hbm])]
          rw [h2]
          have h3 : b :: escapeName t2 = escapeName (b :: t2) := by
            simp only [escapeName]
            rw [if_neg hbd]
          rw [h3, ih (goodName_cons _ _ hg)]
      · have h1 : escapeName (a :: tail) = a :: escapeName tail := by
          simp only [escapeName]
          rw [if_neg ha]
        rw [h1]
        cases tail with
        | nil => rfl
        | cons b t2 =>
          obtain ⟨x, xs, hx⟩ := escapeName_cons_shape b t2
          rw [hx]
          have h2 : unescapeName (a :: x :: xs) = a :: unescapeName (x :: xs) := by
            simp only [unescapeName]
            rw [if_neg (by simp [ha2])]
          rw [h2, ← hx, ih (goodName_cons _ _ hg)]

theorem splitOn_ne_nil (d : Char) (s : List Char) : splitOn d s ≠ [] := by
  cases s with
  | nil => simp [splitOn]
  | cons c rest =>
    simp only [splitOn]
    split
    · simp
    · split <;> simp

theorem splitOn_append (d : Char) (xs ys : List Char) (h : ∀ c ∈ xs, c ≠ d) :
    splitOn d (xs ++ d :: ys) = xs :: splitOn d ys := by
  induction xs with
  | nil => simp [splitOn]
  | cons c xs2 ih =>
    have hc : c ≠ d := h c (by simp)
    have ih2 := ih (fun c2 hc2 => h c2 (by simp [hc2]))
    simp only [List.cons_append, splitOn, List.append_eq]
    rw [if_neg hc, ih2]

theorem joinDot_splitOn (s : List Char) : joinDot (splitOn '.' s) = s := by
  induction s with
  | nil => rfl
  | cons c rest ih =>
    obtain ⟨w, ws, hw⟩ : ∃ w ws, splitOn '.' rest = w :: ws := by
      cases h2 : splitOn '.' rest with
      | nil => exact absurd h2 (splitOn_ne_nil '.' rest)
      | cons w ws => exact ⟨w, ws, rfl⟩
    rw [hw] at ih
    by_cases hc : c = '.'
    · subst hc
      rw [show splitOn '.' ('.' :: rest) = [] :: splitOn '.' rest from by
        simp [splitOn]]
      rw [hw]
      show '.' :: joinDot (w :: ws) = '.' :: rest
      rw [ih]
    · rw [show splitOn '.' (c :: rest) = (c :: w) :: ws from by
        simp only [splitOn, if_neg hc]; rw [hw]]
      cases ws with
      | nil =>
        show c :: w = c :: rest
        rw [show w = rest from ih]
      | cons w2 ws2 =>
        show (c :: w) ++ '.' :: joinDot (w2 :: ws2) = c :: rest
        rw [← show w ++ '.' :: joinDot (w2 :: ws2) = rest from ih]
        simp

theorem pdnsTrySplit_sound (body : List Char) :
    ∀ (fuel j : Nat) (t : List Char), pdnsTrySplit body fuel = some (j, t) →
      1 ≤ j ∧ (t = "auth".toList ∨ t = "recursor".toList) ∧
      ('.' :: t ++ ['.']).isPrefixOf (body.drop j) = true ∧
      pdnsExtraOk (body.drop (j + t.length + 2)) := by
  intro fuel
  induction fuel with
  | zero => intro j t h; exact absurd h (by simp [pdnsTrySplit])
  | succ f ih =>
    intro j t h
    simp only [pdnsTrySplit] at h
    split at h
    case isTrue hc =>
      obtain ⟨h1, _, h3⟩ := hc
      injection h with hh
      injection hh with hj2 ht2
      subst hj2
      subst ht2
      refine ⟨by omega, Or.inl rfl, ?_, ?_⟩
      · have heq : ('.' :: "auth".toList ++ ['.']) = ".auth.".toList := by decide
        rw [heq]
        exact h1
      · have h4 : ("auth".toList).length = 4 := by decide
        have hlen : f + 1 + "auth".toList.length + 2 = f + 1 + 6 := by omega
        rw [hlen]
        exact h3
    case isFalse =>
      split at h
      case isTrue hc =>
        obtain ⟨h1, _, h3⟩ := hc
        injection h with hh
        injection hh with hj2 ht2
        subst hj2
        subst ht2
        refine ⟨by omega, Or.inr rfl, ?_, ?_⟩
        · have heq : ('.' :: "recursor".toList ++ ['.']) = ".recursor.".toList := by decide
          rw [heq]
          exact h1
        · have h8 : ("recursor".toList).length = 8 := by decide
          have hlen : f + 1 + "recursor".toList.length + 2 = f + 1 + 10 := by omega
          rw [hlen]
          exact h3
      case isFalse => exact ih j t h

theorem pdnsMatch_decomp (path n t e : List Char)
    (hnl : path.getLast? ≠ some '\n')
    (h : pdnsMatch path = some (n, t, e)) :
    path = "pdns.".toList ++ n ++ '.' :: t ++ '.' :: e ∧
    (t = "auth".toList ∨ t = "recursor".toList) ∧ n ≠ [] ∧ e ≠ [] := by
  simp only [pdnsMatch] at h
  split at h
  case isFalse => exact absurd h (by simp)
  case isTrue hpre =>
    cases hsplit : pdnsTrySplit (path.drop 5) (path.drop 5).length with
    | none => rw [hsplit] at h; exact absurd h (by simp)
    | some jt =>
      obtain ⟨j, t0⟩ := jt
      rw [hsplit] at h
      injection h with hh
      injection hh with h1 hh2
      injection hh2 with h2 h3
      subst h2
      subst h1
      subst h3
      obtain ⟨hj, ht, hprefix, hextra⟩ :=
        pdnsTrySplit_sound (path.drop 5) (path.drop 5).length j t0 hsplit
      obtain ⟨s, hs⟩ : ∃ s, "pdns.".toList ++ s = path :=
        List.isPrefixOf_iff_prefix.mp hpre
      have h5 : ("pdns.".toList).length = 5 := by decide
      have hbody : path.drop 5 = s := by
        rw [← hs, ← h5, List.drop_left]
      rw [hbody] at hprefix hextra ⊢
      obtain ⟨r, hr⟩ : ∃ r, ('.' :: t0 ++ ['.']) ++ r = s.drop j :=
        List.isPrefixOf_iff_prefix.mp hprefix
      have hple : ('.' :: t0 ++ ['.']).length = t0.length + 2 := by simp
      have he : s.drop (j + t0.length + 2) = r := by
        have hdd : s.drop (j + t0.length + 2) = (s.drop j).drop (t0.length + 2) := by
          rw [List.drop_drop]
          congr 1
        rw [hdd, ← hr, ← hple, List.drop_left]
      rw [he] at hextra ⊢
      have hs_decomp : s = s.take j ++ (('.' :: t0 ++ ['.']) ++ r) := by
        conv_lhs => rw [← List.take_append_drop j s]
        rw [hr]
      have hlen2 := congrArg List.length hr
      simp only [List.length_append, List.length_cons, List.length_drop] at hlen2
      obtain ⟨htw, hdw⟩ := hextra
      rcases hdw with hdw | hdw
      · have htd : r.takeWhile (fun c => c ≠ '\n') ++ r.dropWhile (fun c => c ≠ '\n') = r := by
          simp
        have hre : r.takeWhile (fun c => c ≠ '\n') = r := by
          conv_rhs => rw [← htd]
          rw [hdw]
          simp
        rw [hre]
        refine ⟨?_, ht, ?_, ?_⟩
        · rw [← hs]
          conv_lhs => rw [hs_decomp]
          simp
        · intro hnil
          have hlen3 := congrArg List.length hnil
          simp only [List.length_take, List.length_nil] at hlen3
          omega
        · rw [← hre]
          exact htw
      · exfalso
        apply hnl
        have htd : r.takeWhile (fun c => c ≠ '\n') ++ r.dropWhile (fun c => c ≠ '\n') = r := by
          simp
        have hrsplit : r = r.takeWhile (fun c => c ≠ '\n') ++ ['\n'] := by
          conv_lhs => rw [← htd]
          rw [hdw]
        have hpath2 : path =
            ("pdns.".toList ++ (s.take j ++ ('.' :: t0 ++ ['.']) ++
              r.takeWhile (fun c => c ≠ '\n'))) ++ ['\n'] := by
          rw [← hs]
          conv_lhs => rw [hs_decomp, hrsplit]
          simp
        rw [hpath2, List.getLast?_concat]

theorem ne_dot_of_type (t : List Char) (ht : t = "auth".toList ∨ t = "recursor".toList) :
    ∀ c ∈ t, c ≠ '.' := by
  rcases ht with rfl | rfl <;> decide

theorem splitOn_mkView (t n e : List Char)
    (ht : t = "auth".toList ∨ t = "recursor".toList) :
    splitOn '.' (mkView t n e) =
      "_pdns_view".toList :: t :: escapeName n :: t :: splitOn '.' e := by
  have hview : mkView t n e =
      "_pdns_view".toList ++ '.' :: (t ++ '.' :: (escapeName n ++ '.' :: (t ++ '.' :: e))) := by
    simp only [mkView]
    have : "_pdns_view.".toList = "_pdns_view".toList ++ ['.'] := by decide
    rw [this]
    simp
  rw [hview]
  rw [splitOn_append '.' _ _ (by decide)]
  rw [splitOn_append '.' _ _ (ne_dot_of_type t ht)]
  rw [splitOn_append '.' _ _ (escapeName_ne_dot n)]
  rw [splitOn_append '.' _ _ (ne_dot_of_type t ht)]

/-- Claim C2 (amended): for every raw path the view expansion matches whose
name field holds no dash-dash and no dash-dot substring and which does not
end in a newline (so the `$` of the pdns regex consumes the whole path),
unmapping the produced alias yields back exactly the original raw path,
and the rename table maps the reconstructed raw path to the alias. -/
theorem view_alias_roundtrip (path n t e : List Char)
    (hnl : path.getLast? ≠ some '\n')
    (hm : pdnsMatch path = some (n, t, e)) (hg : goodName n = true) :
    pdns_unmap_views [mkView t n e] = some ([path], [(path, mkView t n e)]) := by
  obtain ⟨hpath, ht, _, _⟩ := pdnsMatch_decomp path n t e hnl hm
  have hpre : viewPrefix.isPrefixOf (mkView t n e) = true := by
    apply List.isPrefixOf_iff_prefix.mpr
    exact ⟨t ++ '.' :: escapeName n ++ '.' :: t ++ '.' :: e, by simp [mkView, viewPrefix]⟩
  have hone : pdns_unmap_one (mkView t n e) = some (path, [(path, mkView t n e)]) := by
    simp only [pdns_unmap_one, hpre, if_pos]
    rw [splitOn_mkView t n e ht]
    simp only [List.drop_succ_cons, List.drop_zero]
    rw [joinDot_splitOn, unescape_escape n hg, ← hpath]
  simp only [pdns_unmap_views, hone]
  simp

/-- Claim C2 counterexample: the raw path `pdns.a--b.auth.x` (its name
field already holds a double dash) expands to the alias
`_pdns_view.auth.a--b.auth.x`, but unmapping that alias reconstructs
`pdns.a.b.auth.x`, not the original path.  Likewise the raw path
`pdns.foo.auth.x` followed by a newline still matches the pdns regex
(`$` matches before the trailing newline, which no group captures), yet
its alias unmaps to `pdns.foo.auth.x` without the newline. -/
theorem view_alias_roundtrip_cex :
    (pdnsMatch "pdns.a--b.auth.x".toList =
      some ("a--b".toList, "auth".toList, "x".toList) ∧
     pdns_unmap_views [mkView "auth".toList "a--b".toList "x".toList] =
      some (["pdns.a.b.auth.x".toList],
        [("pdns.a.b.auth.x".toList, "_pdns_view.auth.a--b.auth.x".toList)]) ∧
     "pdns.a.b.auth.x".toList ≠ "pdns.a--b.auth.x".toList) ∧
    (pdnsMatch "pdns.foo.auth.x\n".toList =
      some ("foo".toList, "auth".toList, "x".toList) ∧
     pdns_unmap_views [mkView "auth".toList "foo".toList "x".toList] =
      some (["pdns.foo.auth.x".toList],
        [("pdns.foo.auth.x".toList, "_pdns_view.auth.foo.auth.x".toList)]) ∧
     "pdns.foo.auth.x".toList ≠ "pdns.foo.auth.x\n".toList) := by
  refine ⟨⟨by rfl, by rfl, by decide⟩, ⟨by rfl, by rfl, by decide⟩⟩

/-- Witness for `view_alias_roundtrip` at a concrete raw path. -/
theorem view_alias_roundtrip_witness :
    pdns_unmap_views [mkView "auth".toList "foo".toList "queries".toList] =
      some (["pdns.foo.auth.queries".toList],
        [("pdns.foo.auth.queries".toList, mkView "auth".toList "foo".toList "queries".toList)]) :=
  view_alias_roundtrip "pdns.foo.auth.queries".toList "foo".toList "auth".toList
    "queries".toList (by decide) (by rfl) (by rfl)

/-! ## Catalog refresh failure (claim C5) -/

/-- Claim C5 counterexample: with a stale catalog loaded
(`metrics_cache = some [...]`, expired timestamp) and a failing backend
request, `_get_metrics_list` leaves the cache unchanged but lets the
exception propagate (`.error ()`) instead of serving the stale catalog,
refuting the claim's stale-serve conjunct. -/
theorem catalog_refresh_cex :
    get_metrics_list ⟨some ["m".toList], some ["m".toList], 0⟩ 1000 300 none =
      (⟨some ["m".toList], some ["m".toList], 0⟩, .error ()) := by
  rfl

/-- Claim C5 (amended): on any failed refresh (request raised, or response
body unparseable) of an expired catalog, the cached metrics list, its set
form and the load timestamp are all left unchanged, and the failure
propagates to the caller — a previously loaded stale catalog is not
served. -/
theorem catalog_refresh_fail_preserves (st : CatalogState) (now expiry : Nat)
    (resp : Option (List Char))
    (hexpired : ¬ st.metrics_cache_ts + expiry > now)
    (hfail : resp = none ∨ ∃ body, resp = some body ∧ load_jsonp body = none) :
    get_metrics_list st now expiry resp = (st, .error ()) := by
  rcases hfail with rfl | ⟨body, rfl, hb⟩
  · simp [get_metrics_list, hexpired]
  · simp [get_metrics_list, hexpired, hb]

/-- Witness for `catalog_refresh_fail_preserves` at a concrete stale state
and an unparseable body. -/
theorem catalog_refresh_fail_preserves_witness :
    get_metrics_list ⟨some ["m".toList], some ["m".toList], 0⟩ 1000 300
      (some "bogus".toList) =
    (⟨some ["m".toList], some ["m".toList], 0⟩, .error ()) :=
  catalog_refresh_fail_preserves ⟨some ["m".toList], some ["m".toList], 0⟩ 1000 300
    (some "bogus".toList) (by decide) (Or.inr ⟨"bogus".toList, rfl, by rfl⟩)

/-! ## Lemmas about the matcher (claim C8) -/

theorem exists_of_findSome {α β : Type} (f : α → Option β) (l : List α) (b : β)
    (h : l.findSome? f = some b) : ∃ a ∈ l, f a = some b := by
  induction l with
  | nil => exact absurd h (by simp)
  | cons x xs ih =>
    cases hfx : f x with
    | some y =>
      simp only [List.findSome?, hfx] at h
      injection h with h2
      exact ⟨x, by simp, by rw [hfx, h2]⟩
    | none =>
      simp only [List.findSome?, hfx] at h
      obtain ⟨a, ha, hfa⟩ := ih h
      exact ⟨a, by simp [ha], hfa⟩

theorem matchToks_suffix (k : List Char → Option (List Char × List Char)) :
    ∀ (ts : List RTok) (s : List Char) (r : List Char × List Char),
      matchToks ts s k = some r → ∃ s2, s2 <:+ s ∧ k s2 = some r := by
  intro ts
  induction ts with
  | nil => exact fun s r h => ⟨s, List.suffix_refl s, h⟩
  | cons tok ts ih =>
    intro s r h
    cases tok with
    | lit c =>
      cases s with
      | nil => exact absurd h (by simp [matchToks])
      | cons x rest =>
        simp only [matchToks] at h
        split at h
        case isTrue hx =>
          obtain ⟨s2, hsuf, hk⟩ := ih rest r h
          exact ⟨s2, hsuf.trans (List.suffix_cons x rest), hk⟩
        case isFalse => exact absurd h (by simp)
    | star =>
      simp only [matchToks] at h
      obtain ⟨i, _, hsome⟩ := exists_of_findSome _ _ r h
      obtain ⟨s2, hsuf, hk⟩ := ih _ r hsome
      exact ⟨s2, hsuf.trans (List.drop_suffix _ s), hk⟩
    | alts ws =>
      simp only [matchToks] at h
      obtain ⟨w, _, hsome⟩ := exists_of_findSome _ _ r h
      by_cases hp : w.isPrefixOf s
      · rw [if_pos hp] at hsome
        obtain ⟨s2, hsuf, hk⟩ := ih _ r hsome
        exact ⟨s2, hsuf.trans (List.drop_suffix _ s), hk⟩
      · rw [if_neg hp] at hsome
        exact absurd hsome (by simp)

theorem matchExtra_spec (s : List Char) (er : List Char × List Char)
    (h : matchExtra s = some er) :
    er.2 = s ∧ ((er.1.isEmpty = true ∧ (s = [] ∨ s = ['\n'])) ∨
      (er.1.isEmpty = false ∧ ∃ rest2, s = '.' :: rest2 ∧ rest2 ≠ [])) := by
  simp only [matchExtra] at h
  split at h
  case isTrue hc =>
    injection h with h2
    subst h2
    exact ⟨rfl, Or.inl ⟨rfl, hc⟩⟩
  case isFalse hc =>
    split at h
    case h_1 rest =>
      split at h
      case isTrue hc2 =>
        injection h with h2
        subst h2
        refine ⟨rfl, Or.inr ⟨rfl, rest, rfl, ?_⟩⟩
        intro hr
        subst hr
        exact hc2.1 rfl
      case isFalse => exact absurd h (by simp)
    case h_2 => exact absurd h (by simp)

/-- Claim C8 counterexample: on the candidate `a` followed by a newline,
the pattern `{a,b}` matches with `$` taken just before the trailing
newline, so `match` returns a leaf result carrying `a` — neither NoMatch,
nor a leaf carrying the candidate itself, nor a branch with a
delimiter-prefixed remainder, refuting the claimed trichotomy. -/
theorem matcher_match_newline_cex :
    compileQuery "\x7ba,b\x7d".toList = some [RTok.alts [['a'], ['b']]] ∧
    matcherMatch [RTok.alts [['a'], ['b']]] ['a', '\n'] = some (['a'], true) ∧
    (['a'] : List Char) ≠ ['a', '\n'] ∧
    (¬ ∃ rest, rest ≠ [] ∧ ['a', '\n'] = ['a'] ++ '.' :: rest) := by
  refine ⟨by decide, by rfl, by decide, ?_⟩
  rintro ⟨rest, _, hr⟩
  simp at hr

/-- Claim C8 (amended): for every compiled pattern and every candidate
path that does not end in a newline, `match` either reports no match, or
a leaf match carrying the candidate itself (the matched region spans the
whole candidate with empty remainder), or a branch match carrying only the
matched region, the candidate being that region followed by a delimiter
and a nonempty remainder.  (A candidate ending in a newline can instead
produce a leaf match carrying the candidate without its trailing newline,
because Python's `$` also matches just before a final newline.) -/
theorem matcher_match_spec (q : List Char) (pat : List RTok) (cand : List Char)
    (hq : compileQuery q = some pat)
    (hnl : cand.getLast? ≠ some '\n') :
    matcherMatch pat cand = none ∨
    matcherMatch pat cand = some (cand, true) ∨
    (∃ p rest, rest ≠ [] ∧ cand = p ++ '.' :: rest ∧
      matcherMatch pat cand = some (p, false)) := by
  cases hm : matchToks pat cand matchExtra with
  | none => exact Or.inl (by simp [matcherMatch, hm])
  | some er =>
    obtain ⟨s2, hsuf, hk⟩ := matchToks_suffix matchExtra pat cand er hm
    obtain ⟨heq, hshape⟩ := matchExtra_spec s2 er hk
    obtain ⟨extra, rest⟩ := er
    have heq2 : rest = s2 := heq
    subst heq2
    obtain ⟨pre, hpre⟩ := hsuf
    have htake : cand.take (cand.length - rest.length) = pre := by
      rw [← hpre]
      have hlen : (pre ++ rest).length - rest.length = pre.length := by simp
      rw [hlen, List.take_left]
    rcases hshape with ⟨hemp, h0 | h0⟩ | ⟨hemp, rest2, h1, hrest⟩
    · subst h0
      right; left
      have hpre2 : pre = cand := by simpa using hpre
      simp only [matcherMatch, hm, hemp]
      simp [hpre2]
    · exfalso
      apply hnl
      rw [← hpre, h0, List.getLast?_concat]
    · subst h1
      right; right
      refine ⟨pre, rest2, hrest, by rw [← hpre], ?_⟩
      simp only [matcherMatch, hm, htake, hemp]

/-- Witness for `matcher_match_spec`: the pattern `foo.*` compiled and
matched against `foo.bar`. -/
theorem matcher_match_spec_witness :
    matcherMatch [RTok.lit 'f', RTok.lit 'o', RTok.lit 'o', RTok.lit '.', RTok.star]
        "foo.bar".toList = none ∨
    matcherMatch [RTok.lit 'f', RTok.lit 'o', RTok.lit 'o', RTok.lit '.', RTok.star]
        "foo.bar".toList = some ("foo.bar".toList, true) ∨
    (∃ p rest, rest ≠ [] ∧ "foo.bar".toList = p ++ '.' :: rest ∧
      matcherMatch [RTok.lit 'f', RTok.lit 'o', RTok.lit 'o', RTok.lit '.', RTok.star]
        "foo.bar".toList = some (p, false)) :=
  matcher_match_spec "foo.*".toList
    [RTok.lit 'f', RTok.lit 'o', RTok.lit 'o', RTok.lit '.', RTok.star]
    "foo.bar".toList (by decide) (by decide)

/-! ## Lemmas about the chunk merge and the rename restoration -/

theorem fetch_merge_go_insert_empty (rs1 : List (Except Unit SeriesDict)) :
    ∀ (rs2 : List (Except Unit SeriesDict)) (acc : SeriesDict),
      fetch_merge_go acc (rs1 ++ .ok [] :: rs2) = fetch_merge_go acc (rs1 ++ rs2) := by
  induction rs1 with
  | nil => intro rs2 acc; rfl
  | cons r rest ih =>
    intro rs2 acc
    cases r with
    | error u => rfl
    | ok d => exact ih rs2 (dictUpdate acc d)

theorem fetch_merge_go_error_mem (rs : List (Except Unit SeriesDict))
    (h : Except.error () ∈ rs) : ∀ acc, fetch_merge_go acc rs = .error () := by
  induction rs with
  | nil => exact absurd h (by simp)
  | cons r rest ih =>
    intro acc
    cases r with
    | error u => rfl
    | ok d =>
      have h2 : Except.error () ∈ rest := by
        rcases List.mem_cons.mp h with heq | hmem
        · exact absurd heq (by simp)
        · exact hmem
      exact ih h2 (dictUpdate acc d)

theorem fetch_merge_go_all_ok (rs : List (Except Unit SeriesDict))
    (h : ∀ r ∈ rs, ∃ d, r = .ok d) : ∀ acc, ∃ m, fetch_merge_go acc rs = .ok m := by
  induction rs with
  | nil => exact fun acc => ⟨acc, rfl⟩
  | cons r rest ih =>
    intro acc
    obtain ⟨d, rfl⟩ := h r (by simp)
    exact ih (fun r2 h2 => h r2 (by simp [h2])) (dictUpdate acc d)

theorem dictPop_eq_none {α : Type} (d : List (List Char × α)) (k : List Char)
    (h : dictLookup d k = none) : dictPop d k = none := by
  induction d with
  | nil => rfl
  | cons kv rest ih =>
    obtain ⟨k2, v⟩ := kv
    simp only [dictLookup] at h
    split at h
    · exact absurd h (by simp)
    case isFalse hne =>
      simp only [dictPop, if_neg hne, ih h]

theorem dictLookup_dictPop_none {α : Type} (d : List (List Char × α)) :
    ∀ (o k : List Char) (v : α) (d2 : List (List Char × α)),
      dictPop d o = some (v, d2) → dictLookup d k = none → dictLookup d2 k = none := by
  induction d with
  | nil => intro o k v d2 hpop; exact absurd hpop (by simp [dictPop])
  | cons kv rest ih =>
    intro o k v d2 hpop hk
    obtain ⟨k2, v2⟩ := kv
    simp only [dictLookup] at hk
    split at hk
    · exact absurd hk (by simp)
    case isFalse hne =>
      simp only [dictPop] at hpop
      split at hpop
      · injection hpop with hh
        injection hh with hv hd
        subst hd
        exact hk
      · cases hpop2 : dictPop rest o with
        | none => rw [hpop2] at hpop; exact absurd hpop (by simp)
        | some vd3 =>
          obtain ⟨v3, d3⟩ := vd3
          rw [hpop2] at hpop
          injection hpop with hh
          injection hh with hv hd
          subst hd
          simp only [dictLookup, if_neg hne]
          exact ih o k v3 d3 hpop2 hk

theorem dictLookup_dictSet_ne {α : Type} (d : List (List Char × α)) (n k : List Char)
    (v : α) (hne : k ≠ n) : dictLookup (dictSet d n v) k = dictLookup d k := by
  have hne2 : ¬ n = k := fun h => hne h.symm
  induction d with
  | nil =>
    simp only [dictSet, dictLookup]
    rw [if_neg hne2]
  | cons kv rest ih =>
    obtain ⟨k2, v2⟩ := kv
    simp only [dictSet]
    split
    case isTrue heq =>
      subst heq
      simp only [dictLookup, if_neg hne2]
    case isFalse heq =>
      simp only [dictLookup]
      split
      · rfl
      · exact ih

theorem apply_renames_missing (renames : List (List Char × List Char)) :
    ∀ (d : SeriesDict) (old vnew : List Char), (old, vnew) ∈ renames →
      dictLookup d old = none → (∀ oe ∈ renames, old ≠ oe.2) →
      apply_renames renames d = none := by
  induction renames with
  | nil => intro d old vnew hmem; exact absurd hmem (by simp)
  | cons oe rest ih =>
    intro d old vnew hmem hmiss hnot
    obtain ⟨o, nn⟩ := oe
    rcases List.mem_cons.mp hmem with heq | hmem2
    · obtain ⟨rfl, rfl⟩ : old = o ∧ vnew = nn := by
        injection heq with h1 h2
        exact ⟨h1, h2⟩
      simp only [apply_renames, dictPop_eq_none d old hmiss]
    · simp only [apply_renames]
      cases hpop : dictPop d o with
      | none => rfl
      | some vd =>
        obtain ⟨v, d2⟩ := vd
        refine ih (dictSet d2 nn v) old vnew hmem2 ?_
          (fun oe2 hoe2 => hnot oe2 (by simp [hoe2]))
        rw [dictLookup_dictSet_ne d2 nn old v (hnot (o, nn) (by simp))]
        exact dictLookup_dictPop_none d o old v d2 hpop hmiss

theorem unmap_renames_shape (paths : List (List Char)) :
    ∀ (upaths : List (List Char)) (renames : List (List Char × List Char)),
      pdns_unmap_views paths = some (upaths, renames) →
      ∀ oe ∈ renames, "pdns.".toList.isPrefixOf oe.1 = true ∧
        viewPrefix.isPrefixOf oe.2 = true := by
  induction paths with
  | nil =>
    intro upaths renames h
    injection h with hh
    injection hh with hu hr
    subst hr
    simp
  | cons p rest ih =>
    intro upaths renames h
    simp only [pdns_unmap_views] at h
    cases h1 : pdns_unmap_one p with
    | none => rw [h1] at h; exact absurd h (by simp)
    | some ur =>
      obtain ⟨u, r⟩ := ur
      cases h2 : pdns_unmap_views rest with
      | none => rw [h1, h2] at h; exact absurd h (by simp)
      | some usrs =>
        obtain ⟨us, rs⟩ := usrs
        rw [h1, h2] at h
        injection h with hh
        injection hh with hu hr
        subst hr
        intro oe hoe
        rcases List.mem_append.mp hoe with hr1 | hr2
        · simp only [pdns_unmap_one] at h1
          split at h1
          case isTrue hpre =>
            split at h1
            case h_1 p0 p1 p2 rest4 =>
              injection h1 with hh1
              injection hh1 with hnew hren
              subst hren
              rcases List.mem_singleton.mp hr1 with rfl
              exact ⟨List.isPrefixOf_iff_prefix.mpr ⟨_, rfl⟩, hpre⟩
            case h_2 => exact absurd h1 (by simp)
          case isFalse =>
            injection h1 with hh1
            injection hh1 with hnew hren
            subst hren
            exact absurd hr1 (by simp)
        · exact ih us rs h2 oe hr2

/-- Claim C6 counterexample: a two-path fetch whose single chunk's backend
request raises is not tolerated: the whole `fetch_multi` raises
(`.error ()`) rather than completing with an empty partial result. -/
theorem chunk_exception_fails_cex :
    fetch_multi {} [['a'], ['b']] 0 7200 [HttpResp.exn] = .error () := by
  rfl

/-- Claim C6 (amended): a chunk whose request returns a non-200 status
yields an empty dict for that chunk (first conjunct); an empty chunk
result contributes nothing to the merged data (second conjunct); a chunk
whose request raises makes the whole fetch raise (third conjunct); and
when every chunk's retrieval succeeds — non-200 chunks do, by the first
conjunct — the fetch as a whole succeeds, provided no requested path was
view-aliased (no renames pending, else the missing keys raise `KeyError`)
and the window spans at least 10 time units (else `points = 0` raises
`ZeroDivisionError`) (fourth conjunct). -/
theorem chunk_failure_handling :
    (∀ (paths : List (List Char)) (status : Nat) (body : List Char), status ≠ 200 →
        retrieve_data paths (HttpResp.resp status body) = .ok []) ∧
    (∀ (rs1 rs2 : List (Except Unit SeriesDict)) (acc : SeriesDict),
        fetch_merge_go acc (rs1 ++ .ok [] :: rs2) = fetch_merge_go acc (rs1 ++ rs2)) ∧
    (∀ (last : LastFetch) (paths upaths : List (List Char))
        (renames : List (List Char × List Char)) (st et : Int) (resps : List HttpResp),
        pdns_unmap_views paths = some (upaths, renames) →
        HttpResp.exn ∈ ((chunk upaths URLLENGTH).zip resps).map Prod.snd →
        fetch_multi_core last paths st et resps = .error ()) ∧
    (∀ (last : LastFetch) (paths upaths : List (List Char)) (st et : Int)
        (resps : List HttpResp),
        pdns_unmap_views paths = some (upaths, []) →
        fm_points st et ≠ 0 →
        (∀ pr ∈ (chunk upaths URLLENGTH).zip resps, ∃ d, retrieve_data pr.1 pr.2 = .ok d) →
        ∃ ti data newLast, fetch_multi_core last paths st et resps = .ok (ti, data, newLast)) := by
  refine ⟨?_, ?_, ?_, ?_⟩
  · intro paths status body h
    simp [retrieve_data, h]
  · exact fun rs1 rs2 acc => fetch_merge_go_insert_empty rs1 rs2 acc
  · intro last paths upaths renames st et resps hun hexn
    simp only [fetch_multi_core, hun]
    split
    · rfl
    · have herr : fetch_merge (((chunk upaths URLLENGTH).zip resps).map
          (fun pr => retrieve_data pr.1 pr.2)) = .error () := by
        apply fetch_merge_go_error_mem
        obtain ⟨pr, hpr, hpr2⟩ := List.mem_map.mp hexn
        refine List.mem_map.mpr ⟨pr, hpr, ?_⟩
        rw [hpr2]
        rfl
      rw [herr]
  · intro last paths upaths st et resps hun hpts hall
    simp only [fetch_multi_core, hun]
    rw [if_neg hpts]
    obtain ⟨m, hm⟩ := fetch_merge_go_all_ok
      (((chunk upaths URLLENGTH).zip resps).map (fun pr => retrieve_data pr.1 pr.2))
      (by
        intro r hr
        obtain ⟨pr, hpr, hpr2⟩ := List.mem_map.mp hr
        obtain ⟨d2, hd2⟩ := hall pr hpr
        exact ⟨d2, by rw [← hpr2, hd2]⟩) []
    rw [show fetch_merge (((chunk upaths URLLENGTH).zip resps).map
        (fun pr => retrieve_data pr.1 pr.2)) = .ok m from hm]
    exact ⟨_, _, _, rfl⟩

/-- Witness for `chunk_failure_handling`: a non-200 chunk yields an empty
result dict, and a two-path fetch whose single chunk returns 500 still
completes successfully. -/
theorem chunk_failure_handling_witness :
    retrieve_data [['a']] (HttpResp.resp 500 []) = .ok [] ∧
    ∃ ti data newLast,
      fetch_multi_core {} [['a'], ['b']] 0 7200 [HttpResp.resp 500 []] =
        .ok (ti, data, newLast) :=
  ⟨chunk_failure_handling.1 [['a']] 500 [] (by decide),
   chunk_failure_handling.2.2.2 {} [['a'], ['b']] [['a'], ['b']] 0 7200
     [HttpResp.resp 500 []] (by rfl) (by decide)
     (by
       intro pr hpr
       have hz : (chunk [['a'], ['b']] URLLENGTH).zip [HttpResp.resp 500 []] =
           [([['a'], ['b']], HttpResp.resp 500 [])] := by rfl
       rw [hz] at hpr
       rcases List.mem_singleton.mp hpr with rfl
       exact ⟨[], by rfl⟩)⟩

/-- Claim C10: when a requested view-aliased path's unmapped real path has
no entry in the merged backend results, the rename-restoration loop's
`ext_data.pop(old)` raises `KeyError` and the whole fetch body fails
(`.error ()`), instead of returning a result that omits the path. -/
theorem fetch_view_missing_key_fails (last : LastFetch) (paths upaths : List (List Char))
    (renames : List (List Char × List Char)) (d : SeriesDict)
    (old vnew : List Char) (st et : Int) (resps : List HttpResp)
    (hun : pdns_unmap_views paths = some (upaths, renames))
    (hmerge : fetch_merge (((chunk upaths URLLENGTH).zip resps).map
        (fun pr => retrieve_data pr.1 pr.2)) = .ok d)
    (hmem : (old, vnew) ∈ renames)
    (hmiss : dictLookup d old = none) :
    fetch_multi_core last paths st et resps = .error () := by
  simp only [fetch_multi_core, hun]
  split
  · rfl
  · have hnot : ∀ oe ∈ renames, old ≠ oe.2 := by
      intro oe hoe heq
      have hshape := unmap_renames_shape paths upaths renames hun
      have h1 : "pdns.".toList.isPrefixOf old = true := (hshape (old, vnew) hmem).1
      have h2 : viewPrefix.isPrefixOf oe.2 = true := (hshape oe hoe).2
      rw [← heq] at h2
      obtain ⟨s1, hs1⟩ := List.isPrefixOf_iff_prefix.mp h1
      obtain ⟨s2, hs2⟩ := List.isPrefixOf_iff_prefix.mp h2
      rw [← hs1] at hs2
      have hv : viewPrefix = '_' :: "pdns_view.".toList := by decide
      have hp : "pdns.".toList = 'p' :: "dns.".toList := by decide
      rw [hv, hp] at hs2
      simp only [List.cons_append] at hs2
      injection hs2 with hc _
      exact absurd hc (by decide)
    simp only [hmerge, apply_renames_missing renames d old vnew hmem hmiss hnot]

/-- Witness for `fetch_view_missing_key_fails`: a fetch of one view alias
whose backend response holds no data for the unmapped path. -/
theorem fetch_view_missing_key_fails_witness :
    fetch_multi_core {} ["_pdns_view.auth.x.auth.y".toList] 0 7200
      [HttpResp.resp 200 "_(\x7b raw: \x7b\x7d, derivative: \x7b\x7d \x7d);".toList] =
      .error () :=
  fetch_view_missing_key_fails {} ["_pdns_view.auth.x.auth.y".toList]
    ["pdns.x.auth.y".toList]
    [("pdns.x.auth.y".toList, "_pdns_view.auth.x.auth.y".toList)] []
    "pdns.x.auth.y".toList "_pdns_view.auth.x.auth.y".toList 0 7200
    [HttpResp.resp 200 "_(\x7b raw: \x7b\x7d, derivative: \x7b\x7d \x7d);".toList]
    (by rfl) (by rfl) (by simp) (by rfl)

/-! ## The window cache (claim C7) -/

/-- Claim C7: a single-path fetch is served from the last-fetch cache if
and only if its `end` equals the cached fetch's requested `start`, its
`start` is at least the cached extended start, and the path is present in
the cached extended data; a hit returns the cached step and the Python
slice `ext_data[path][additional_points - points : additional_points]`
with `points = (end - start) // cached_step`; a miss makes `fetch_multi`
fall through to the normal fetch body; and on any cache state recorded
by a fetch (positive step, `ext_start = start - additional_points * step`,
enough cached samples) the served slice ends at index `additional_points`
and has exactly `points` samples. -/
theorem window_cache_spec (last : LastFetch) (path : List Char) (st et : Int)
    (resps : List HttpResp) :
    ((fetch_from_last last path st et).isSome ↔
      ∃ d series, last.ext_data = some d ∧ dictLookup d path = some series ∧
        et = last.start_time ∧ last.ext_start_time ≤ st) ∧
    (∀ d series, last.ext_data = some d → dictLookup d path = some series →
      et = last.start_time → last.ext_start_time ≤ st →
      fetch_from_last last path st et =
        some ((st, et, last.step),
          pySlice series (last.additional_points - (et - st).fdiv last.step)
            last.additional_points)) ∧
    (fetch_from_last last path st et = none →
      fetch_multi last [path] st et resps = fetch_multi_core last [path] st et resps) ∧
    (∀ d series, last.ext_data = some d → dictLookup d path = some series →
      et = last.start_time → last.ext_start_time ≤ st → st ≤ et →
      0 < last.step → 0 ≤ last.additional_points →
      last.ext_start_time = last.start_time - last.additional_points * last.step →
      last.additional_points.toNat ≤ series.length →
      ∃ values, fetch_from_last last path st et = some ((st, et, last.step), values) ∧
        values = (series.take last.additional_points.toNat).drop
          (last.additional_points - (et - st).fdiv last.step).toNat ∧
        values.length = ((et - st).fdiv last.step).toNat) := by
  have hpay : ∀ d series, last.ext_data = some d → dictLookup d path = some series →
      et = last.start_time → last.ext_start_time ≤ st →
      fetch_from_last last path st et =
        some ((st, et, last.step),
          pySlice series (last.additional_points - (et - st).fdiv last.step)
            last.additional_points) := by
    intro d series hd hlook het hge
    simp only [fetch_from_last, hd, hlook, if_pos (And.intro het hge)]
  refine ⟨⟨?_, ?_⟩, hpay, ?_, ?_⟩
  · intro hsome
    cases hd : last.ext_data with
    | none => simp only [fetch_from_last, hd] at hsome; simp at hsome
    | some d =>
      cases hlook : dictLookup d path with
      | none => simp only [fetch_from_last, hd, hlook] at hsome; simp at hsome
      | some series =>
        by_cases hcond : et = last.start_time ∧ last.ext_start_time ≤ st
        · exact ⟨d, series, rfl, hlook, hcond.1, hcond.2⟩
        · simp only [fetch_from_last, hd, hlook, if_neg hcond] at hsome
          simp at hsome
  · rintro ⟨d, series, hd, hlook, het, hge⟩
    rw [hpay d series hd hlook het hge]
    simp
  · intro hnone
    simp only [fetch_multi, hnone]
  · intro d series hd hlook het hge hstet hstep hap hext hlen
    have hfd : (et - st).fdiv last.step = (et - st) / last.step :=
      Int.fdiv_eq_ediv _ (le_of_lt hstep)
    have hp0 : 0 ≤ (et - st).fdiv last.step := by
      rw [hfd]
      exact Int.ediv_nonneg (by omega) (le_of_lt hstep)
    have hpA : (et - st).fdiv last.step ≤ last.additional_points := by
      rw [hfd]
      have h1 : et - st ≤ last.additional_points * last.step := by omega
      calc (et - st) / last.step ≤ (last.additional_points * last.step) / last.step :=
            Int.ediv_le_ediv hstep h1
        _ = last.additional_points := Int.mul_ediv_cancel _ (ne_of_gt hstep)
    have hb : pySliceIdx series.length last.additional_points =
        last.additional_points.toNat := by
      simp only [pySliceIdx]
      rw [if_neg (by omega)]
      omega
    have ha : pySliceIdx series.length
        (last.additional_points - (et - st).fdiv last.step) =
        (last.additional_points - (et - st).fdiv last.step).toNat := by
      simp only [pySliceIdx]
      rw [if_neg (by omega)]
      omega
    have hslice : pySlice series (last.additional_points - (et - st).fdiv last.step)
        last.additional_points =
        (series.take last.additional_points.toNat).drop
          (last.additional_points - (et - st).fdiv last.step).toNat := by
      simp only [pySlice, hb, ha]
    refine ⟨(series.take last.additional_points.toNat).drop
      (last.additional_points - (et - st).fdiv last.step).toNat, ?_, rfl, ?_⟩
    · rw [hpay d series hd hlook het hge, hslice]
    · rw [List.length_drop, List.length_take]
      omega

/-- Witness for `window_cache_spec`: a concrete populated cache state
serving the moving-average follow-up request `[100, 200)` after an
original fetch `[200, 400)` with step 10 and 100 extra samples. -/
theorem window_cache_spec_witness :
    ∃ values,
      fetch_from_last
        ⟨200, 400, 10, 20, 100, -800, 120,
          some [("m".toList, List.replicate 120 JValue.jnull)]⟩
        "m".toList 100 200 = some ((100, 200, 10), values) ∧
      values = ((List.replicate 120 JValue.jnull).take (100 : Int).toNat).drop
        ((100 : Int) - ((200 : Int) - 100).fdiv 10).toNat ∧
      values.length = (((200 : Int) - 100).fdiv 10).toNat :=
  (window_cache_spec
    ⟨200, 400, 10, 20, 100, -800, 120,
      some [("m".toList, List.replicate 120 JValue.jnull)]⟩
    "m".toList 100 200 []).2.2.2
    [("m".toList, List.replicate 120 JValue.jnull)] (List.replicate 120 JValue.jnull)
    (by rfl) (by rfl) (by decide) (by decide) (by decide) (by decide) (by decide)
    (by decide) (by simp)

end Metronome
